import Mathlib

/-!
# Verification of the jupyterhub_grouper_sync synchronization engine

Shallow embedding of `src/jupyterhub_grouper_sync/__init__.py`.

The Python program is event-loop code over JSON values.  We embed:
* JSON values as the inductive `Json`; Python subscripting `d[k]` as the
  fallible `jget`; the Python `in` operator as `pyIn`.
* Python exceptions as the `PyErr` type; fallible code returns `Except PyErr`.
* The network as oracles (functions from request data to `Except PyErr Json`),
  so each theorem quantifies over every possible behaviour of the remote APIs.
* The timing structure of the `async` code (which requests are submitted
  before which yields, how many lookups are in flight) as explicit event
  traces and a small-step transition system for the semaphore.
-/

namespace GrouperSync

/-- Python exception values, as far as the program distinguishes them. -/
inductive PyErr
  | connectionError
  | keyError (k : String)
  | typeError
  | attributeError
  | jsonDecodeError
  | calledProcessError
  deriving DecidableEq

/-- JSON values (the bodies the program parses with `json.loads` and the
dicts it builds). -/
inductive Json
  | null
  | bool (b : Bool)
  | num (n : Int)
  | str (s : String)
  | arr (items : List Json)
  | obj (fields : List (String × Json))

/-- `Except.isOk` specialised so results can be inspected by `decide`. -/
def isOkE {ε α : Type} : Except ε α → Bool
  | .ok _ => true
  | .error _ => false

/-- Python subscripting `j[k]` with a string key: a dict lookup raising
`KeyError` when the key is absent, and `TypeError` on any non-dict value
(e.g. `None["oauth_user"]`). -/
def jget : Json → String → Except PyErr Json
  | .obj fields, k =>
    match fields.find? (fun p => p.1 == k) with
    | some p => .ok p.2
    | none => .error (.keyError k)
  | _, _ => .error .typeError

/-- The Python `in` operator `k in j` for a string `k`: key test on dicts,
element test on lists, substring test on strings, `TypeError` otherwise. -/
def pyIn (k : String) : Json → Except PyErr Bool
  | .obj fields => .ok (fields.any (fun p => p.1 == k))
  | .arr items => .ok (items.any (fun x => match x with | .str s => s == k | _ => false))
  | .str s => .ok (1 < (s.splitOn k).length)
  | _ => .error .typeError

/-! ## Membership Publisher (`boolean_string`, `add_members`) -/

/-- Source: `def boolean_string(b): return {True: "T", False: "F"}[b]`. -/
def booleanString (b : Bool) : String :=
  if b then "T" else "F"

/-- Python `str.isalpha()`: true iff the string is non-empty and every
character is alphabetic.  (Restricted to the ASCII alphabet, which is all
the program's member keys use.) -/
def pyIsAlpha (s : String) : Bool :=
  !s.isEmpty && s.toList.all Char.isAlpha

/-- Source, `add_members`:
`if type(member) == int or member.isalpha(): member_key = "subjectId"
 else: member_key = "subjectIdentifier"`.
A JSON integer satisfies `type(member) == int`; on a string the `or`
falls through to `member.isalpha()`; any other value raises
`AttributeError` from `.isalpha()`. -/
def memberKeyFor : Json → Except PyErr String
  | .num _ => .ok "subjectId"
  | .str s => .ok (if pyIsAlpha s then "subjectId" else "subjectIdentifier")
  | _ => .error .attributeError

/-- One element of `subjectLookups`: the dict `{member_key: member}` the
loop body of `add_members` appends. -/
def memberEntry (m : Json) : Except PyErr Json := do
  let k ← memberKeyFor m
  pure (.obj [(k, m)])

/-- Total form of `memberEntry` on string members, used to state payload
equations (`memberEntry (.str s) = .ok (memberEntryStr s)` is proved, not
assumed). -/
def memberEntryStr (s : String) : Json :=
  .obj [((if pyIsAlpha s then "subjectId" else "subjectIdentifier"), .str s)]

/-- The `WsRestAddMemberRequest` body built by `add_members`. -/
structure WsRequest where
  replaceAllExisting : String
  subjectLookups : List Json

/-- Building the outbound payload of `add_members`: the
`replaceAllExisting` flag via `boolean_string`, and one appended lookup
entry per element of `members` in loop order. -/
def addMembersPayload (replaceExisting : Bool) (members : List Json) :
    Except PyErr WsRequest := do
  let lookups ← members.mapM memberEntry
  pure ⟨booleanString replaceExisting, lookups⟩

/-- Log events emitted by the program (only the ones the claims refer to
are distinguished). -/
inductive LogEv
  | errorGettingUser (name : String)
  | warnProblem
  | errorLogged
  | infoFound (n : Nat)
  | infoMembers
  | infoDone
  | errorComm
  deriving DecidableEq

/-- Source, `add_members` after building the payload: `requests.put` plus
`r.json()` (the `putOracle`), then
`try: if problem_key in out: warn; meta = out[...]["resultMetadata"];
raise Exception(meta); ... except Exception as e: logger.error(...)`,
finally `return out`.  A transport or JSON-decode failure of the PUT is
*not* caught here and propagates; everything inside the inner `try` is
caught and only logged. -/
def addMembers (putOracle : WsRequest → Except PyErr Json)
    (replaceExisting : Bool) (members : List Json) :
    Except PyErr (Json × List LogEv) :=
  match addMembersPayload replaceExisting members with
  | .error e => .error e
  | .ok payload =>
    match putOracle payload with
    | .error e => .error e
    | .ok out =>
      match pyIn "WsRestResultProblem" out with
      | .error _ => .ok (out, [.errorLogged])
      | .ok true => .ok (out, [.warnProblem, .errorLogged])
      | .ok false => .ok (out, [])

/-! ## Member Resolver (`get_user_info`, `handle_user`) -/

/-- A user record as `handle_user` consumes it: the source accesses
`user["admin"]` and `user["name"]`. -/
structure UserRec where
  name : String
  admin : Bool
  deriving DecidableEq

/-- Rendering of an exception into the f-string message. -/
def errString : PyErr → String
  | .connectionError => "ConnectionError"
  | .keyError k => k
  | .typeError => "TypeError"
  | .attributeError => "AttributeError"
  | .jsonDecodeError => "JSONDecodeError"
  | .calledProcessError => "CalledProcessError"

/-- Source, `get_user_info`: the `outcome` argument is the joint result of
`await fetch(req)` and `json.loads(response.body.decode("utf-8"))`, both
inside the `try`.  On success the function returns
`{"status": "success", "user_data": user_data}`; any exception is caught,
logged, and turned into `{"status": "error", "message": ...}`.  The
function itself never raises. -/
def getUserInfo (outcome : Except PyErr Json) (name : String) :
    Json × List LogEv :=
  match outcome with
  | .ok userData =>
    (.obj [("status", .str "success"), ("user_data", userData)], [])
  | .error e =>
    (.obj [("status", .str "error"),
           ("message", .str ("Unexpected error: " ++ errString e))],
     [.errorGettingUser name])

/-- Source, `handle_user` loop body: the chained subscripts
`user_data["user_data"]["auth_state"]["oauth_user"]["login_id"]`
applied to the dict returned by `get_user_info`.  Any missing key or
non-dict intermediate value raises (`KeyError` / `TypeError`). -/
def extractChain (ud : Json) : Except PyErr Json := do
  let d ← jget ud "user_data"
  let a ← jget d "auth_state"
  let ou ← jget a "oauth_user"
  jget ou "login_id"

/-- The last three subscripts of `extractChain`, applied directly to the
fetched user detail body. -/
def extractLogin (d : Json) : Except PyErr Json := do
  let a ← jget d "auth_state"
  let ou ← jget a "oauth_user"
  jget ou "login_id"

/-- A detail-lookup outcome is *soft* when it either failed inside
`get_user_info` (and was converted to an error dict there) or succeeded
with a body containing the full `auth_state.oauth_user.login_id` path. -/
def lookupSoft : Except PyErr Json → Bool
  | .error _ => true
  | .ok d => isOkE (extractLogin d)

/-- Source, `handle_user` member-collection loop: for each record, skip it
when `user["admin"]`; otherwise `await get_user_info(user)` (its
fetch+parse outcome given by `lookupOracle` on the user's name), and when
`"user_data" in user_data`, run the chained subscripts and append the
login id.  An exception from the chained subscripts is uncaught in the
source and therefore propagates (`Except.error`). -/
def resolveMembers : List UserRec → (String → Except PyErr Json) →
    Except PyErr (List Json × List LogEv)
  | [], _ => .ok ([], [])
  | u :: rest, o =>
    if u.admin then
      resolveMembers rest o
    else
      let r := getUserInfo (o u.name) u.name
      match pyIn "user_data" r.1 with
      | .error e => .error e
      | .ok false =>
        match resolveMembers rest o with
        | .error e => .error e
        | .ok (ms, lgs2) => .ok (ms, r.2 ++ lgs2)
      | .ok true =>
        match extractChain r.1 with
        | .error e => .error e
        | .ok li =>
          match resolveMembers rest o with
          | .error e => .error e
          | .ok (ms, lgs2) => .ok (li :: ms, r.2 ++ lgs2)

/-- The member list the spec's soft-failure semantics predicts: non-admin
users whose lookup succeeded and carried the full login path, in input
order; users with failed lookups omitted.  (Stated from the claim's words,
to be compared with `resolveMembers`.) -/
def softMembers (users : List UserRec) (o : String → Except PyErr Json) :
    List Json :=
  users.filterMap fun u =>
    if u.admin then none
    else
      match o u.name with
      | .error _ => none
      | .ok d =>
        match extractLogin d with
        | .ok li => some li
        | .error _ => none

/-- The per-user error log entries the soft-failure semantics predicts:
one per non-admin user whose fetch+parse failed. -/
def softLogs (users : List UserRec) (o : String → Except PyErr Json) :
    List LogEv :=
  users.filterMap fun u =>
    if u.admin then none
    else
      match o u.name with
      | .error _ => some (.errorGettingUser u.name)
      | .ok _ => none

/-- Source, `handle_user` after the loop:
`try: logger.info(...); logger.info(...);
 await add_members(grouper_base_url, grouper_auth, grouper_id_path, True, members);
 logger.info(...)
 except subprocess.CalledProcessError as e: logger.error(...)`.
Only `subprocess.CalledProcessError` is caught; every other exception from
`add_members` propagates out of `handle_user`. -/
def handleUser (users : List UserRec)
    (lookupOracle : String → Except PyErr Json)
    (putOracle : WsRequest → Except PyErr Json) :
    Except PyErr (List LogEv) :=
  match resolveMembers users lookupOracle with
  | .error e => .error e
  | .ok (members, lgs) =>
    match addMembers putOracle true members with
    | .ok (_out, lgs2) =>
      .ok (lgs ++ [.infoFound members.length, .infoMembers] ++ lgs2 ++ [.infoDone])
    | .error .calledProcessError =>
      .ok (lgs ++ [.infoFound members.length, .infoMembers, .errorComm])
    | .error e => .error e

/-! ## Lookup timing of `handle_user`

The loop `for user in users_to_process: ... user_data = await get_user_info(user)`
awaits each detail lookup to completion before the next iteration starts,
so the request timeline of a pass is a strict start/finish alternation:
the lookup of a record begins only after the previous one has finished. -/

/-- Request-timeline events of the per-user lookups. -/
inductive TraceEv
  | start (u : UserRec)
  | finish (u : UserRec)
  deriving DecidableEq

/-- One start/finish pair per looked-up record, in loop order. -/
def pairTrace : List UserRec → List TraceEv
  | [] => []
  | u :: rest => .start u :: .finish u :: pairTrace rest

/-- The lookup timeline of one pass: the loop skips `admin` records and
sequentially awaits a lookup for every other record. -/
def lookupTrace (users : List UserRec) : List TraceEv :=
  pairTrace (users.filter (fun u => !u.admin))

/-- Number of lookups in flight after each event, starting from `c`. -/
def flightLevels : Nat → List TraceEv → List Nat
  | _, [] => []
  | c, .start _ :: rest => (c + 1) :: flightLevels (c + 1) rest
  | c, .finish _ :: rest => (c - 1) :: flightLevels (c - 1) rest

/-- Largest number of lookups simultaneously in flight over a timeline. -/
def maxInFlight (tr : List TraceEv) : Nat :=
  (flightLevels 0 tr).foldr max 0

/-! ## Paginated Fetcher (`fetch_paginated`) -/

/-- One parsed response body of the list endpoint: either a bare array
(pre-2.0 compatibility) or `{"items": ..., "_pagination": {"next": ...}}`
with the next page's URL when `next` is non-null. -/
inductive PageResp
  | bare (items : List Json)
  | paged (items : List Json) (next : Option String)

/-- Observable events of `fetch_paginated`: submitting the request for a
page (`asyncio.ensure_future(fetch(req))`) and yielding one item. -/
inductive PgEvent
  | submit (pageNo : Nat) (url : String)
  | yieldItem (pageNo : Nat) (item : Json)

/-- The loop body of `fetch_paginated`, at current `page_no`, consuming
the successive response bodies: a bare list is a terminal page; a paged
response with non-null `next` first submits the next request (before any
yield of the current page), then yields the current items; a paged
response with null `next` yields its items and ends the sequence. -/
def fetchPagesAux : Nat → List PageResp → List PgEvent
  | _, [] => []
  | pageNo, .bare items :: _ => items.map (PgEvent.yieldItem pageNo)
  | pageNo, .paged items none :: _ => items.map (PgEvent.yieldItem pageNo)
  | pageNo, .paged items (some u) :: rest =>
    PgEvent.submit (pageNo + 1) u ::
      (items.map (PgEvent.yieldItem pageNo) ++ fetchPagesAux (pageNo + 1) rest)

/-- Full event trace of `fetch_paginated`: the initial request is
submitted before the loop, then the loop consumes responses in order. -/
def fetchPaginatedTrace (initialUrl : String) (responses : List PageResp) :
    List PgEvent :=
  PgEvent.submit 1 initialUrl :: fetchPagesAux 1 responses

/-- The sequence of items yielded over a trace, in trace order. -/
def yieldedItems (tr : List PgEvent) : List Json :=
  tr.filterMap fun e =>
    match e with
    | .yieldItem _ it => some it
    | _ => none

/-- The items carried by one response body. -/
def respItems : PageResp → List Json
  | .bare items => items
  | .paged items _ => items

/-- A response that ends the pagination run (no non-null `next`). -/
def terminalResp : PageResp → Bool
  | .bare _ => true
  | .paged _ none => true
  | .paged _ (some _) => false

/-- A complete pagination run: every response before the last carries a
non-null `next`, and the last is terminal. -/
def wfResponses : List PageResp → Bool
  | [] => false
  | [r] => terminalResp r
  | r :: rest => !terminalResp r && wfResponses rest

/-- Whether an event is a request submission. -/
def isSubmit : PgEvent → Bool
  | .submit _ _ => true
  | _ => false

/-- Rank used to order trace events: submitting page `p` happens before
yielding the items of page `p - 1`. -/
def evRank : PgEvent → Nat
  | .submit p _ => 2 * p - 1
  | .yieldItem p _ => 2 * p + 2

/-! ## Concurrency Limiter (the semaphore-wrapped `fetch`) -/

/-- Limiter state: free semaphore slots and limiter-wrapped requests in
flight. -/
structure LimState where
  avail : Nat
  inFlight : Nat
  deriving DecidableEq

/-- Source, the `concurrency`-positive branch:
`await semaphore.acquire(); try: return await client.fetch(req)
 finally: semaphore.release()`.
A request starts only by taking a free slot; it leaves the in-flight set
by releasing its slot, on the success path and on the exception path
alike (the `finally`). -/
inductive LimStep : LimState → LimState → Prop
  | acquire (s : LimState) : 0 < s.avail →
      LimStep s ⟨s.avail - 1, s.inFlight + 1⟩
  | finishOk (s : LimState) : 0 < s.inFlight →
      LimStep s ⟨s.avail + 1, s.inFlight - 1⟩
  | finishErr (s : LimState) : 0 < s.inFlight →
      LimStep s ⟨s.avail + 1, s.inFlight - 1⟩

/-- States reachable from `asyncio.Semaphore(concurrency)` with no
request yet issued. -/
def LimReachable (n : Nat) : LimState → Prop :=
  Relation.ReflTransGen LimStep ⟨n, 0⟩

/-- Source, the `concurrency == 0` branch: `fetch = client.fetch`, no
wrapping at all. -/
def fetchUnlimited {α β : Type} (clientFetch : α → β) : α → β :=
  clientFetch

/-! ## Helper lemmas -/

theorem isOkE_true_iff {ε α : Type} (r : Except ε α) :
    isOkE r = true ↔ ∃ a, r = .ok a := by
  cases r <;> simp [isOkE]

theorem isOkE_false_iff {ε α : Type} (r : Except ε α) :
    isOkE r = false ↔ ∃ e, r = .error e := by
  cases r <;> simp [isOkE]

theorem jget_success_dict (d : Json) :
    jget (Json.obj [("status", Json.str "success"), ("user_data", d)])
      "user_data" = .ok d := rfl

theorem pyIn_success_dict (d : Json) :
    pyIn "user_data" (Json.obj [("status", Json.str "success"), ("user_data", d)]) =
      .ok true := rfl

theorem pyIn_error_dict (m : Json) :
    pyIn "user_data" (Json.obj [("status", Json.str "error"), ("message", m)]) =
      .ok false := rfl

theorem extractChain_success_dict (d : Json) :
    extractChain (Json.obj [("status", Json.str "success"), ("user_data", d)]) =
      extractLogin d := rfl

/-- On inputs where every successful non-admin detail lookup carries the
full login path, `resolveMembers` implements the soft-failure semantics:
it returns the input-order member list and one error log per failed
lookup. -/
theorem resolveMembers_soft_eq (users : List UserRec)
    (o : String → Except PyErr Json)
    (h : ∀ u ∈ users, u.admin = false → lookupSoft (o u.name) = true) :
    resolveMembers users o = .ok (softMembers users o, softLogs users o) := by
  induction users with
  | nil => rfl
  | cons u rest ih =>
    have hrest : ∀ v ∈ rest, v.admin = false → lookupSoft (o v.name) = true :=
      fun v hv => h v (List.mem_cons_of_mem u hv)
    have ihr := ih hrest
    by_cases hu : u.admin
    · simp [resolveMembers, softMembers, softLogs, hu, ihr]
    · have hu' : u.admin = false := by simpa using hu
      cases ho : o u.name with
      | error e =>
        simp only [resolveMembers, hu', if_neg (by simp [hu'] : ¬(u.admin = true)),
          ho, getUserInfo, pyIn_error_dict, ihr]
        simp [softMembers, softLogs, hu', ho]
      | ok d =>
        have hsoft := h u (List.mem_cons_self u rest) hu'
        rw [ho] at hsoft
        obtain ⟨li, hli⟩ := (isOkE_true_iff _).1 (by simpa [lookupSoft] using hsoft)
        simp only [resolveMembers, hu', if_neg (by simp [hu'] : ¬(u.admin = true)),
          ho, getUserInfo, pyIn_success_dict, extractChain_success_dict, hli, ihr]
        simp [softMembers, softLogs, hu', ho, hli]

/-- Each non-admin user whose fetch+parse failed contributes its error
log entry to `softLogs`. -/
theorem softLogs_mem_of_error (users : List UserRec)
    (o : String → Except PyErr Json) (u : UserRec) (hu : u ∈ users)
    (hadm : u.admin = false) (herr : isOkE (o u.name) = false) :
    LogEv.errorGettingUser u.name ∈ softLogs users o := by
  obtain ⟨e, he⟩ := (isOkE_false_iff _).1 herr
  apply List.mem_filterMap.2
  exact ⟨u, hu, by simp [hadm, he]⟩

theorem flightLevels_pair_le (l : List UserRec) :
    ∀ x ∈ flightLevels 0 (pairTrace l), x ≤ 1 := by
  induction l with
  | nil => intro x hx; simp [pairTrace, flightLevels] at hx
  | cons u rest ih =>
    intro x hx
    simp only [pairTrace, flightLevels, List.mem_cons, Nat.add_sub_cancel] at hx
    rcases hx with h | h | h
    · omega
    · omega
    · exact ih x h

theorem foldr_max_le_one (ns : List Nat) (h : ∀ x ∈ ns, x ≤ 1) :
    ns.foldr max 0 ≤ 1 := by
  induction ns with
  | nil => simp
  | cons a rest ih =>
    simp only [List.foldr_cons]
    exact Nat.max_le.2 ⟨h a (List.mem_cons_self a rest),
      ih fun x hx => h x (List.mem_cons_of_mem a hx)⟩

/-- The sequential lookup loop of `handle_user` never has two detail
lookups in flight at once. -/
theorem maxInFlight_le_one (users : List UserRec) :
    maxInFlight (lookupTrace users) ≤ 1 :=
  foldr_max_le_one _ (flightLevels_pair_le _)

theorem start_mem_pairTrace (l : List UserRec) (u : UserRec)
    (h : TraceEv.start u ∈ pairTrace l) : u ∈ l := by
  induction l with
  | nil => simp [pairTrace] at h
  | cons v rest ih =>
    simp only [pairTrace, List.mem_cons] at h
    rcases h with h | h | h
    · injection h with h'
      exact h' ▸ List.mem_cons_self v rest
    · cases h
    · exact List.mem_cons_of_mem v (ih h)

/-- Only non-admin records appear in the lookup timeline. -/
theorem lookupTrace_start_not_admin (users : List UserRec) (u : UserRec)
    (h : TraceEv.start u ∈ lookupTrace users) : u.admin = false := by
  have hu := start_mem_pairTrace _ _ h
  have := List.of_mem_filter hu
  simpa using this

/-- Admin records contribute nothing to the resolution: resolving a user
list equals resolving its non-admin sublist. -/
theorem resolveMembers_filter_not_admin (users : List UserRec)
    (o : String → Except PyErr Json) :
    resolveMembers users o = resolveMembers (users.filter fun u => !u.admin) o := by
  induction users with
  | nil => rfl
  | cons u rest ih =>
    by_cases hu : u.admin
    · simp [resolveMembers, List.filter_cons, hu, ih]
    · have hu' : u.admin = false := by simpa using hu
      simp only [List.filter_cons, hu', Bool.not_false, if_pos]
      simp only [resolveMembers, hu', if_neg (by simp [hu'] : ¬(u.admin = true))]
      rw [ih]

/-- The resolution result depends on the lookup oracle only at non-admin
records: no detail lookup is issued for an admin record. -/
theorem resolveMembers_oracle_congr (users : List UserRec)
    (o o2 : String → Except PyErr Json)
    (h : ∀ u ∈ users, u.admin = false → o u.name = o2 u.name) :
    resolveMembers users o = resolveMembers users o2 := by
  induction users with
  | nil => rfl
  | cons u rest ih =>
    have ihr := ih fun v hv => h v (List.mem_cons_of_mem u hv)
    by_cases hu : u.admin
    · simp [resolveMembers, hu, ihr]
    · have hu' : u.admin = false := by simpa using hu
      have hname := h u (List.mem_cons_self u rest) hu'
      simp only [resolveMembers, hu', if_neg (by simp [hu'] : ¬(u.admin = true))]
      rw [hname, ihr]

theorem aux_rank_lb (rs : List PageResp) :
    ∀ (p : Nat) (e : PgEvent), e ∈ fetchPagesAux p rs → 2 * p + 1 ≤ evRank e := by
  induction rs with
  | nil => intro p e he; simp [fetchPagesAux] at he
  | cons r rest ih =>
    intro p e he
    cases r with
    | bare items =>
      simp only [fetchPagesAux, List.mem_map] at he
      obtain ⟨it, _, rfl⟩ := he
      simp only [evRank]; omega
    | paged items next =>
      cases next with
      | none =>
        simp only [fetchPagesAux, List.mem_map] at he
        obtain ⟨it, _, rfl⟩ := he
        simp only [evRank]; omega
      | some u =>
        simp only [fetchPagesAux, List.mem_cons, List.mem_append, List.mem_map] at he
        rcases he with rfl | ⟨it, _, rfl⟩ | he
        · simp only [evRank]; omega
        · simp only [evRank]; omega
        · have := ih (p + 1) e he; omega

theorem pairwise_yields (items : List Json) (p : Nat) :
    (items.map (PgEvent.yieldItem p)).Pairwise
      (fun a b => evRank a ≤ evRank b) := by
  induction items with
  | nil => simp
  | cons it rest ih =>
    simp only [List.map_cons, List.pairwise_cons]
    refine ⟨?_, ih⟩
    intro b hb
    simp only [List.mem_map] at hb
    obtain ⟨it2, _, rfl⟩ := hb
    simp [evRank]

theorem aux_pairwise (rs : List PageResp) :
    ∀ p : Nat, (fetchPagesAux p rs).Pairwise
      (fun a b => evRank a ≤ evRank b) := by
  induction rs with
  | nil => intro p; simp [fetchPagesAux]
  | cons r rest ih =>
    intro p
    cases r with
    | bare items => exact pairwise_yields items p
    | paged items next =>
      cases next with
      | none => exact pairwise_yields items p
      | some u =>
        simp only [fetchPagesAux, List.pairwise_cons, List.pairwise_append,
          List.mem_append, List.mem_map]
        refine ⟨?_, pairwise_yields items p, ih (p + 1), ?_⟩
        · intro b hb
          rcases hb with ⟨it, _, rfl⟩ | hb
          · simp only [evRank]; omega
          · have := aux_rank_lb rest (p + 1) b hb
            simp only [evRank] at this ⊢; omega
        · intro a ha b hb
          obtain ⟨it, _, rfl⟩ := ha
          have := aux_rank_lb rest (p + 1) b hb
          simp only [evRank] at this ⊢; omega

/-- The whole `fetch_paginated` trace is ordered by `evRank`: the request
for the next page is submitted before the current page's items are
yielded. -/
theorem trace_pairwise (url : String) (rs : List PageResp) :
    (fetchPaginatedTrace url rs).Pairwise
      (fun a b => evRank a ≤ evRank b) := by
  simp only [fetchPaginatedTrace, List.pairwise_cons]
  refine ⟨?_, aux_pairwise rs 1⟩
  intro b hb
  have := aux_rank_lb rs 1 b hb
  simp only [evRank] at this ⊢; omega

theorem yielded_map (items : List Json) (p : Nat) :
    yieldedItems (items.map (PgEvent.yieldItem p)) = items := by
  induction items with
  | nil => rfl
  | cons it rest ih => simp [yieldedItems, List.filterMap_cons] at ih ⊢; exact ih

/-- Over a complete pagination run the yielded sequence is the
concatenation of all pages' items in page order. -/
theorem aux_yield_join : ∀ (rs : List PageResp) (p : Nat),
    wfResponses rs = true →
    yieldedItems (fetchPagesAux p rs) = (rs.map respItems).flatten
  | [], _, h => by simp [wfResponses] at h
  | [r], p, h => by
    cases r with
    | bare items => simp [fetchPagesAux, respItems, yielded_map]
    | paged items next =>
      cases next with
      | none => simp [fetchPagesAux, respItems, yielded_map]
      | some u => simp [wfResponses, terminalResp] at h
  | r :: r2 :: rest, p, h => by
    have hwf : wfResponses (r2 :: rest) = true := by
      simp only [wfResponses, Bool.and_eq_true] at h
      exact h.2
    cases r with
    | bare items => simp [wfResponses, terminalResp] at h
    | paged items next =>
      cases next with
      | none => simp [wfResponses, terminalResp] at h
      | some u =>
        have ih := aux_yield_join (r2 :: rest) (p + 1) hwf
        have hsplit : yieldedItems (fetchPagesAux p
            (PageResp.paged items (some u) :: r2 :: rest)) =
            yieldedItems (items.map (PgEvent.yieldItem p)) ++
              yieldedItems (fetchPagesAux (p + 1) (r2 :: rest)) := by
          simp [fetchPagesAux, yieldedItems, List.filterMap_cons,
            List.filterMap_append]
        rw [hsplit, yielded_map, ih]
        simp [List.map_cons, List.flatten_cons, respItems]

/-- Every page with a non-null `next` descriptor has the corresponding
request-submission event in the trace. -/
theorem aux_submit_mem : ∀ (rs : List PageResp) (p k : Nat) (hk : k < rs.length)
    (items : List Json) (u : String), wfResponses rs = true →
    rs.get ⟨k, hk⟩ = PageResp.paged items (some u) →
    PgEvent.submit (p + k + 1) u ∈ fetchPagesAux p rs
  | [], _, k, hk, _, _, _, _ => by simp at hk
  | r :: rest, p, 0, _, items, u, _, hget => by
    simp only [List.get] at hget
    subst hget
    simp [fetchPagesAux]
  | r :: rest, p, k + 1, hk, items, u, hwf, hget => by
    cases rest with
    | nil => simp at hk
    | cons r2 rest2 =>
      have hwf2 : wfResponses (r2 :: rest2) = true := by
        simp only [wfResponses, Bool.and_eq_true] at hwf
        exact hwf.2
      have hterm : terminalResp r = false := by
        simp only [wfResponses, Bool.and_eq_true, Bool.not_eq_true'] at hwf
        exact hwf.1
      have hget2 : (r2 :: rest2).get ⟨k, by simpa using hk⟩ =
          PageResp.paged items (some u) := hget
      have ih := aux_submit_mem (r2 :: rest2) (p + 1) k (by simpa using hk)
        items u hwf2 hget2
      cases r with
      | bare items0 => simp [terminalResp] at hterm
      | paged items0 next =>
        cases next with
        | none => simp [terminalResp] at hterm
        | some u0 =>
          simp only [fetchPagesAux, List.mem_cons, List.mem_append]
          right; right
          have : p + 1 + k + 1 = p + (k + 1) + 1 := by omega
          exact this ▸ ih

theorem filter_isSubmit_yields (items : List Json) (p : Nat) :
    (items.map (PgEvent.yieldItem p)).filter isSubmit = [] := by
  induction items with
  | nil => rfl
  | cons it rest ih => simp [isSubmit, ih]

/-- Slot-count invariant of the semaphore-wrapped `fetch`: free slots
plus requests in flight always total the configured concurrency. -/
theorem lim_invariant (n : Nat) (s : LimState) (h : LimReachable n s) :
    s.avail + s.inFlight = n := by
  induction h with
  | refl => rfl
  | tail _ step ih =>
    cases step with
    | acquire ht => simp only []; omega
    | finishOk ht => simp only []; omega
    | finishErr ht => simp only []; omega

theorem mapM_memberEntry_str (ms : List String) :
    (ms.map Json.str).mapM memberEntry = .ok (ms.map memberEntryStr) := by
  induction ms with
  | nil => rfl
  | cons s rest ih =>
    simp only [List.map_cons, List.mapM_cons, ih]
    by_cases hs : pyIsAlpha s <;>
      simp [memberEntry, memberKeyFor, memberEntryStr, hs, bind, Except.bind, pure,
        Except.pure]

/-! ## Claim theorems -/

/-- C1 (counterexample): the purely numeric member key `"123"` is placed
in the structured field `subjectIdentifier`, and the opaque field
`subjectId` is absent — the opposite of what the claim states for purely
numeric strings.  In the source, a string member is classified by
`member.isalpha()` alone (`type(member) == int` is false for every JSON
string), and `"123".isalpha()` is false. -/
theorem numeric_member_uses_subjectIdentifier :
    "123".toList.all Char.isDigit = true
    ∧ memberEntry (Json.str "123") =
        .ok (Json.obj [("subjectIdentifier", Json.str "123")])
    ∧ jget (Json.obj [("subjectIdentifier", Json.str "123")]) "subjectId" =
        .error (.keyError "subjectId")
    ∧ addMembersPayload true [Json.str "123"] =
        .ok ⟨"T", [Json.obj [("subjectIdentifier", Json.str "123")]]⟩ :=
  ⟨by decide, rfl, rfl, rfl⟩

/-- C1 (amended): for a string member key the outbound entry populates
`subjectId` exactly when the string is purely alphabetic (Python
`isalpha`: non-empty and all alphabetic); every other string — including
every purely numeric one — populates `subjectIdentifier`; the two fields
are never both set for one entry. -/
theorem member_classification_isalpha (s : String) :
    (pyIsAlpha s = true →
      memberEntry (Json.str s) = .ok (Json.obj [("subjectId", Json.str s)]))
    ∧ (pyIsAlpha s = false →
      memberEntry (Json.str s) =
        .ok (Json.obj [("subjectIdentifier", Json.str s)]))
    ∧ ∀ e, memberEntry (Json.str s) = .ok e →
        ¬(isOkE (jget e "subjectId") = true
          ∧ isOkE (jget e "subjectIdentifier") = true) := by
  have hne : (("subjectId" : String) == "subjectIdentifier") = false := by decide
  have hne2 : (("subjectIdentifier" : String) == "subjectId") = false := by decide
  refine ⟨?_, ?_, ?_⟩
  · intro hs
    simp [memberEntry, memberKeyFor, hs, bind, Except.bind, pure, Except.pure]
  · intro hs
    simp [memberEntry, memberKeyFor, hs, bind, Except.bind, pure, Except.pure]
  · intro e he h2
    by_cases hs : pyIsAlpha s
    · have he2 : e = Json.obj [("subjectId", Json.str s)] := by
        simp [memberEntry, memberKeyFor, hs, bind, Except.bind, pure,
          Except.pure] at he
        exact he.symm
      subst he2
      simp [jget, List.find?, hne2, isOkE] at h2
    · have hs' : pyIsAlpha s = false := by simpa using hs
      have he2 : e = Json.obj [("subjectIdentifier", Json.str s)] := by
        simp [memberEntry, memberKeyFor, hs', bind, Except.bind, pure,
          Except.pure] at he
        exact he.symm
      subst he2
      simp [jget, List.find?, hne, isOkE] at h2

/-- C1 (witness): the amended classification at the purely alphabetic key
`"alice"` and the structured key `"a:b:c"`. -/
theorem member_classification_isalpha_witness :
    pyIsAlpha "alice" = true
    ∧ memberEntry (Json.str "alice") =
        .ok (Json.obj [("subjectId", Json.str "alice")])
    ∧ pyIsAlpha "a:b:c" = false
    ∧ memberEntry (Json.str "a:b:c") =
        .ok (Json.obj [("subjectIdentifier", Json.str "a:b:c")]) :=
  ⟨by decide, (member_classification_isalpha "alice").1 (by decide),
   by decide, (member_classification_isalpha "a:b:c").2.1 (by decide)⟩

/-- C2 (counterexample): a non-admin user whose detail lookup succeeds
with a body lacking `auth_state` is not a logged-and-omitted soft
failure; the chained subscripts in `handle_user` raise a `KeyError` that
propagates, aborting the whole pass instead of continuing. -/
theorem missing_auth_state_aborts_pass :
    handleUser [⟨"alice", false⟩] (fun _ => .ok (Json.obj []))
        (fun _ => .ok (Json.obj [])) = .error (.keyError "auth_state")
    ∧ isOkE (handleUser [⟨"alice", false⟩] (fun _ => .ok (Json.obj []))
        (fun _ => .ok (Json.obj []))) = false :=
  ⟨rfl, rfl⟩

/-- C2 (amended): a transport error or malformed body in a non-admin
user's detail lookup is a per-user soft failure — the error is logged
and that user is omitted while the pass continues — provided every
lookup that does succeed carries the full
`auth_state.oauth_user.login_id` path; a successful lookup missing part
of that path instead raises an uncaught exception that aborts the pass
(see the counterexample). -/
theorem per_user_lookup_soft_failures (users : List UserRec)
    (o : String → Except PyErr Json)
    (h : ∀ u ∈ users, u.admin = false → lookupSoft (o u.name) = true) :
    resolveMembers users o = .ok (softMembers users o, softLogs users o)
    ∧ ∀ u ∈ users, u.admin = false → isOkE (o u.name) = false →
        LogEv.errorGettingUser u.name ∈ softLogs users o :=
  ⟨resolveMembers_soft_eq users o h,
   fun u hu hadm herr => softLogs_mem_of_error users o u hu hadm herr⟩

/-- C2 (witness): two non-admin users, one lookup failing with a
connection error: the failed user is omitted and logged, the other
resolved, and the pass continues. -/
theorem per_user_lookup_soft_failures_witness :
    resolveMembers [⟨"carol", false⟩, ⟨"dave", false⟩]
        (fun n => if n == "dave" then .error .connectionError
          else .ok (Json.obj [("auth_state", Json.obj [("oauth_user",
            Json.obj [("login_id", Json.str "carol@x")])])])) =
      .ok ([Json.str "carol@x"], [LogEv.errorGettingUser "dave"])
    ∧ LogEv.errorGettingUser "dave" ∈ ([LogEv.errorGettingUser "dave"] : List LogEv) := by
  have h := per_user_lookup_soft_failures [⟨"carol", false⟩, ⟨"dave", false⟩]
    (fun n => if n == "dave" then .error .connectionError
      else .ok (Json.obj [("auth_state", Json.obj [("oauth_user",
        Json.obj [("login_id", Json.str "carol@x")])])]))
    (by decide)
  exact ⟨h.1.trans rfl, List.mem_singleton.2 rfl⟩

/-- C3 (code bug, evaluated): a connection error raised by the
membership-replace PUT is not caught inside the pass — the `except`
clause of `handle_user` catches only `subprocess.CalledProcessError`,
which nothing in the pass can raise — so the exception escapes the
publish step, contrary to the claim.  (A `CalledProcessError`, were it
possible, would be caught and logged, as the second conjunct shows.) -/
theorem put_connection_error_escapes_pass :
    handleUser [] (fun _ => .error .typeError)
        (fun _ => .error .connectionError) = .error .connectionError
    ∧ handleUser [] (fun _ => .error .typeError)
        (fun _ => .error .calledProcessError) =
      .ok [.infoFound 0, .infoMembers, .errorComm] :=
  ⟨rfl, rfl⟩

/-- C4 (counterexample): with two eligible non-admin records, the
lookup timeline of `handle_user` is a strict start/finish alternation —
the second lookup starts only after the first finishes — so at most one
lookup is ever in flight, refuting the claimed concurrent execution. -/
theorem two_lookups_never_concurrent :
    lookupTrace [⟨"a", false⟩, ⟨"b", false⟩] =
      [.start ⟨"a", false⟩, .finish ⟨"a", false⟩,
       .start ⟨"b", false⟩, .finish ⟨"b", false⟩]
    ∧ maxInFlight (lookupTrace [⟨"a", false⟩, ⟨"b", false⟩]) = 1 :=
  ⟨rfl, rfl⟩

/-- C4 (amended): the per-user detail lookups of one pass execute
sequentially — at most one in flight at any instant — and the resulting
member sequence follows the input order of the user records
(`softMembers` is an input-order traversal). -/
theorem lookups_sequential_in_input_order (users : List UserRec)
    (o : String → Except PyErr Json) :
    maxInFlight (lookupTrace users) ≤ 1
    ∧ ((∀ u ∈ users, u.admin = false → lookupSoft (o u.name) = true) →
        resolveMembers users o = .ok (softMembers users o, softLogs users o)) :=
  ⟨maxInFlight_le_one users, fun h => resolveMembers_soft_eq users o h⟩

/-- C4 (witness): two successful non-admin users resolve in input order,
with at most one lookup in flight. -/
theorem lookups_sequential_in_input_order_witness :
    maxInFlight (lookupTrace [⟨"a", false⟩, ⟨"b", false⟩]) ≤ 1
    ∧ resolveMembers [⟨"a", false⟩, ⟨"b", false⟩]
        (fun n => .ok (Json.obj [("auth_state", Json.obj [("oauth_user",
          Json.obj [("login_id", Json.str n)])])])) =
      .ok ([Json.str "a", Json.str "b"], []) := by
  have h := lookups_sequential_in_input_order [⟨"a", false⟩, ⟨"b", false⟩]
    (fun n => .ok (Json.obj [("auth_state", Json.obj [("oauth_user",
      Json.obj [("login_id", Json.str n)])])]))
  exact ⟨h.1, (h.2 (by decide)).trans rfl⟩

/-- C5: in every `fetch_paginated` trace, (1) no item of page `k` is
yielded before the submission of the request for page `k + 1` (the
trailing `l1` decomposition), (2) on a complete run every page with a
non-null `next` — list index `k`, page number `k + 1` — has its
next-page request (page `k + 2`) submitted, and (3) on a complete run
the yielded sequence is the concatenation of all pages' items in page
order. -/
theorem lookahead_pagination_order (url : String) (rs : List PageResp) :
    (∀ (k : Nat) (u : String) (it : Json) (l1 l2 : List PgEvent),
      fetchPaginatedTrace url rs = l1 ++ PgEvent.submit (k + 1) u :: l2 →
      PgEvent.yieldItem k it ∉ l1)
    ∧ (∀ (k : Nat) (hk : k < rs.length) (items : List Json) (u : String),
      wfResponses rs = true →
      rs.get ⟨k, hk⟩ = PageResp.paged items (some u) →
      PgEvent.submit (k + 2) u ∈ fetchPaginatedTrace url rs)
    ∧ (wfResponses rs = true →
      yieldedItems (fetchPaginatedTrace url rs) = (rs.map respItems).flatten) := by
  refine ⟨?_, ?_, ?_⟩
  · intro k u it l1 l2 htr hmem
    have pw := trace_pairwise url rs
    rw [htr] at pw
    have hcross := (List.pairwise_append.1 pw).2.2 (PgEvent.yieldItem k it) hmem
      (PgEvent.submit (k + 1) u) (List.mem_cons_self _ _)
    simp only [evRank] at hcross
    omega
  · intro k hk items u hwf hget
    have hmem := aux_submit_mem rs 1 k hk items u hwf hget
    have harith : 1 + k + 1 = k + 2 := by omega
    rw [harith] at hmem
    exact List.mem_cons_of_mem _ hmem
  · intro hwf
    have h := aux_yield_join rs 1 hwf
    have hsplit : yieldedItems (fetchPaginatedTrace url rs) =
        yieldedItems (fetchPagesAux 1 rs) := by
      simp [fetchPaginatedTrace, yieldedItems, List.filterMap_cons]
    exact hsplit.trans h

/-- C5 (witness): a two-page run — page 2's request is submitted before
page 1's item is yielded, and the yields concatenate both pages. -/
theorem lookahead_pagination_order_witness :
    PgEvent.yieldItem 1 (Json.str "x") ∉ [PgEvent.submit 1 "u1"]
    ∧ PgEvent.submit 2 "u2" ∈ fetchPaginatedTrace "u1"
        [PageResp.paged [Json.str "x"] (some "u2"),
         PageResp.paged [Json.str "y"] none]
    ∧ yieldedItems (fetchPaginatedTrace "u1"
        [PageResp.paged [Json.str "x"] (some "u2"),
         PageResp.paged [Json.str "y"] none]) =
      [Json.str "x", Json.str "y"] := by
  have h := lookahead_pagination_order "u1"
    [PageResp.paged [Json.str "x"] (some "u2"),
     PageResp.paged [Json.str "y"] none]
  exact ⟨h.1 1 "u2" (Json.str "x") [PgEvent.submit 1 "u1"]
      [PgEvent.yieldItem 1 (Json.str "x"), PgEvent.yieldItem 2 (Json.str "y")] rfl,
    h.2.1 0 (by decide) [Json.str "x"] "u2" rfl rfl,
    (h.2.2 rfl).trans rfl⟩

/-- C6: with `concurrency = n > 0`, every reachable state of the
semaphore-wrapped `fetch` has at most `n` limiter-wrapped requests in
flight; every step that takes a request out of flight — the success and
the exception path alike — returns its slot (`finally`); and with
`concurrency = 0` the wrapper is the raw `client.fetch`. -/
theorem fetch_limiter_bound (n : Nat) (s : LimState) (_hn : 0 < n)
    (hs : LimReachable n s) :
    s.inFlight ≤ n
    ∧ (∀ t : LimState, LimStep s t → t.inFlight < s.inFlight →
        t.avail = s.avail + 1)
    ∧ (∀ (f : Nat → Except PyErr Json) (r : Nat), fetchUnlimited f r = f r) := by
  refine ⟨?_, ?_, fun f r => rfl⟩
  · have := lim_invariant n s hs
    omega
  · intro t st hlt
    cases st with
    | acquire ht => simp only [] at hlt; omega
    | finishOk ht => rfl
    | finishErr ht => rfl

/-- C6 (witness): the limiter bound applied at `concurrency = 2` in the
reachable state with one request in flight, and the unlimited wrapper
evaluated at a concrete request. -/
theorem fetch_limiter_bound_witness :
    (⟨1, 1⟩ : LimState).inFlight ≤ 2
    ∧ fetchUnlimited (fun _ : Nat => (Except.ok Json.null : Except PyErr Json)) 5 =
      Except.ok Json.null := by
  have hreach : LimReachable 2 ⟨1, 1⟩ :=
    Relation.ReflTransGen.single (LimStep.acquire ⟨2, 0⟩ (by decide))
  obtain ⟨h1, -, h3⟩ := fetch_limiter_bound 2 ⟨1, 1⟩ (by decide) hreach
  exact ⟨h1, h3 _ 5⟩

/-- C7: a response that parses to a bare JSON array is a single terminal
page: the trace submits only the initial request, yields exactly the
array's elements in order, and ends — whatever responses the server
would have given afterwards. -/
theorem bare_list_single_page (url : String) (items : List Json)
    (rest : List PageResp) :
    fetchPaginatedTrace url (PageResp.bare items :: rest) =
      PgEvent.submit 1 url :: items.map (PgEvent.yieldItem 1)
    ∧ (fetchPaginatedTrace url (PageResp.bare items :: rest)).filter isSubmit =
      [PgEvent.submit 1 url]
    ∧ yieldedItems (fetchPaginatedTrace url (PageResp.bare items :: rest)) =
      items := by
  refine ⟨rfl, ?_, ?_⟩
  · show (PgEvent.submit 1 url :: items.map (PgEvent.yieldItem 1)).filter isSubmit = _
    simp [List.filter_cons, isSubmit, filter_isSubmit_yields]
  · show yieldedItems (PgEvent.submit 1 url :: items.map (PgEvent.yieldItem 1)) = _
    have hstep : yieldedItems (PgEvent.submit 1 url ::
        items.map (PgEvent.yieldItem 1)) =
        yieldedItems (items.map (PgEvent.yieldItem 1)) := by
      simp [yieldedItems, List.filterMap_cons]
    exact hstep.trans (yielded_map items 1)

/-- C8: admin records are excluded from the resolution regardless of
their other fields — resolving a list equals resolving its non-admin
sublist — no lookup-timeline event starts a lookup for an admin record,
and the result never depends on the lookup oracle's behaviour at admin
records (no detail lookup is issued for them). -/
theorem admin_records_excluded (users : List UserRec)
    (o o2 : String → Except PyErr Json) :
    resolveMembers users o = resolveMembers (users.filter fun u => !u.admin) o
    ∧ (∀ u, TraceEv.start u ∈ lookupTrace users → u.admin = false)
    ∧ ((∀ u ∈ users, u.admin = false → o u.name = o2 u.name) →
      resolveMembers users o = resolveMembers users o2) :=
  ⟨resolveMembers_filter_not_admin users o,
   fun u h => lookupTrace_start_not_admin users u h,
   fun h => resolveMembers_oracle_congr users o o2 h⟩

/-- C8 (witness): a single admin record resolves like the empty list,
and changing the oracle at the admin record does not change the
result. -/
theorem admin_records_excluded_witness :
    resolveMembers [⟨"root", true⟩] (fun _ => .error .connectionError) =
      resolveMembers [] (fun _ => .error .connectionError)
    ∧ resolveMembers [⟨"root", true⟩] (fun _ => .error .connectionError) =
      resolveMembers [⟨"root", true⟩] (fun _ => .ok Json.null) := by
  have h := admin_records_excluded [⟨"root", true⟩]
    (fun _ => .error .connectionError) (fun _ => .ok Json.null)
  refine ⟨h.1, h.2.2 ?_⟩
  intro u hu hadm
  simp only [List.mem_singleton] at hu
  subst hu
  exact absurd hadm (by decide)

/-- C9: `get_user_info` never raises: for every fetch+parse outcome its
returned dict has `status = "success"` with a `user_data` entry, or
`status = "error"` with a `message` entry. -/
theorem get_user_info_result_shape (outcome : Except PyErr Json)
    (name : String) :
    (jget (getUserInfo outcome name).1 "status" = .ok (Json.str "success")
      ∧ ∃ d, jget (getUserInfo outcome name).1 "user_data" = .ok d)
    ∨ (jget (getUserInfo outcome name).1 "status" = .ok (Json.str "error")
      ∧ ∃ m, jget (getUserInfo outcome name).1 "message" = .ok m) := by
  cases outcome with
  | ok d => exact Or.inl ⟨rfl, d, rfl⟩
  | error e => exact Or.inr ⟨rfl, _, rfl⟩

/-- C10: for a list of string member keys the outbound payload carries
exactly one `subjectLookups` entry per input element, in input order,
duplicates preserved (it is the elementwise map of the entry builder),
so its length equals the input length; and `replaceAllExisting` is
`boolean_string(True) = "T"`. -/
theorem payload_one_entry_per_member (ms : List String) :
    (∀ s, memberEntry (Json.str s) = .ok (memberEntryStr s))
    ∧ ∃ p, addMembersPayload true (ms.map Json.str) = .ok p
        ∧ p.replaceAllExisting = booleanString true
        ∧ booleanString true = "T"
        ∧ p.subjectLookups = ms.map memberEntryStr
        ∧ p.subjectLookups.length = ms.length := by
  constructor
  · intro s
    by_cases hs : pyIsAlpha s <;>
      simp [memberEntry, memberKeyFor, memberEntryStr, hs, bind, Except.bind,
        pure, Except.pure]
  · refine ⟨⟨"T", ms.map memberEntryStr⟩, ?_, rfl, rfl, rfl, by simp⟩
    unfold addMembersPayload
    rw [mapM_memberEntry_str]
    rfl

end GrouperSync
